import Mathlib

/-!
Verification development for the waterz frontend
(src/waterz/frontend_agglomerate.h and src/waterz/frontend_agglomerate.cpp).

Modelling conventions:
the machine integers (uint64_t SegID, uint32_t GtID, int handle ids) are
modelled as Nat; the float affinity and score values as Rat.  The two
unordered maps inside UnmergeTracker are modelled as functions
Nat → Option (List Nat) so that the C++ distinction between an absent key
and a present key holding an empty vector is preserved (the private getters
of UnmergeTracker only overwrite their out-parameter when the key is
present, which makes that distinction observable).  Fallible code is
modelled with Except.  The backend iterative region merging engine
(backend/IterativeRegionMerging.hpp and the queue headers) is not part of
the two source files of this repository, so it is modelled from the spec
where noted.
-/

set_option maxRecDepth 4000

namespace Waterz

abbrev SegID := Nat
abbrev GroupId := Nat
abbrev GroupIdList := List GroupId
abbrev UnmergeGroupListTupleList := List (List (List Nat))

/-- One unordered_map field of UnmergeTracker: an absent key is none. -/
abbrev GroupMap := Nat → Option (List Nat)

/-- Map update covering both push_back and the operator[]-insert idiom of the
constructor: key k now holds its previous list (empty when the key was
absent) extended by v, and the key is present afterwards. -/
def updAppend (m : GroupMap) (k : Nat) (v : List Nat) : GroupMap :=
  fun x => if x = k then some ((m k).getD [] ++ v) else m x

/-- UnmergeTracker of frontend_agglomerate.h, lines 118-253. -/
structure UnmergeTracker where
  segToGroups : GroupMap
  groupToAnti : GroupMap
  isEmptyFlag : Bool

/-- Group id chosen for a coherent seed list: its first element
(segid_list[0] in the constructor; the C++ indexing presumes a non-empty
list, the default 0 stands in for the undefined empty case). -/
def headGroupId (sl : List Nat) : Nat := sl.headD 0

/-- First inner loop of the UnmergeTracker constructor for one tuple: every
seed id of every coherent list receives the group id of its list. -/
def addSegGroups (m : GroupMap) (tuple : List (List Nat)) : GroupMap :=
  tuple.foldl (fun m1 sl => sl.foldl (fun m2 sid => updAppend m2 sid [headGroupId sl]) m1) m

/-- Second inner loop of the UnmergeTracker constructor for one tuple: every
group id of the mutex list receives all other ids of that list as antis. -/
def addAntis (m : GroupMap) (ml : List Nat) : GroupMap :=
  ml.foldl (fun m1 gid => updAppend m1 gid (ml.filter (fun o => o != gid))) m

/-- UnmergeTracker constructor (header lines 127-173).  An empty input list
sets the empty flag and leaves both maps empty; otherwise each tuple first
populates segToGroups and then accumulates the pairwise anti lists.  The
two per-tuple loops act on disjoint fields, so they are folded separately
here with the same per-tuple order as the source. -/
def mkUnmergeTracker (L : UnmergeGroupListTupleList) : UnmergeTracker :=
  if L = [] then ⟨fun _ => none, fun _ => none, true⟩
  else
    ⟨L.foldl (fun m tup => addSegGroups m tup) (fun _ => none),
     L.foldl (fun m tup => addAntis m (tup.map headGroupId)) (fun _ => none),
     false⟩

/-- getGroupIDs (header lines 242-246): the out parameter starts empty and is
only overwritten when the key is present. -/
def UnmergeTracker.getGroupIDs (t : UnmergeTracker) (x : SegID) : GroupIdList :=
  (t.segToGroups x).getD []

/-- Anti list of a group id as stored in the map (empty when absent). -/
def UnmergeTracker.antiOf (t : UnmergeTracker) (g : GroupId) : GroupIdList :=
  (t.groupToAnti g).getD []

/-- Inner double loop of isValidMerge (header lines 203-210): some group of b
equals some entry of the current anti list. -/
def scanAnti (antis gbs : List Nat) : Bool :=
  gbs.any (fun b => antis.any (fun x => x == b))

/-- Outer loop of isValidMerge.  The accumulator models the C++ local
anti_groups_a, which getAntiGroupIDs (lines 248-252) only overwrites when
the group id is a present key, so an absent key leaves the previous
iteration value in place. -/
def isValidAux (t : UnmergeTracker) (gbs : List Nat) : List Nat → List Nat → Bool
  | _, [] => true
  | acc, ga :: rest =>
    let acc2 := match t.groupToAnti ga with
      | some l => l
      | none => acc
    if scanAnti acc2 gbs then false else isValidAux t gbs acc2 rest

/-- isValidMerge (header lines 175-214). -/
def UnmergeTracker.isValidMerge (t : UnmergeTracker) (a b : SegID) : Bool :=
  if t.isEmptyFlag then true
  else isValidAux t (t.getGroupIDs b) [] (t.getGroupIDs a)

/-- onMerge (header lines 216-234): concatenate the group lists of a and b
and store them for the survivor c, but only when the concatenation is
non-empty. -/
def UnmergeTracker.onMerge (t : UnmergeTracker) (a b c : SegID) : UnmergeTracker :=
  if t.isEmptyFlag then t
  else if (t.getGroupIDs a ++ t.getGroupIDs b).length ≠ 0 then
    { t with segToGroups := fun x =>
        if x = c then some (t.getGroupIDs a ++ t.getGroupIDs b) else t.segToGroups x }
  else t

/-- Tracker states produced by the constructor followed by any sequence of
onMerge calls whose survivor is one of the two merged ids (the assert in
onMerge, header line 220). -/
inductive Reachable : UnmergeTracker → Prop
  | base (L : UnmergeGroupListTupleList) : Reachable (mkUnmergeTracker L)
  | merge (t : UnmergeTracker) (a b c : SegID) :
      Reachable t → (c = a ∨ c = b) → Reachable (t.onMerge a b c)

/-- Every group id held by some seg id is a present key of the anti map.
This holds for all constructed trackers because the constructor creates an
anti map entry (via operator[]) for the head of every coherent list. -/
def AntiKeysComplete (t : UnmergeTracker) : Prop :=
  ∀ x g, g ∈ t.getGroupIDs x → (t.groupToAnti g).isSome

/-- The anti relation is symmetric as a membership relation. -/
def AntiSymmRel (t : UnmergeTracker) : Prop :=
  ∀ g y, y ∈ t.antiOf g → g ∈ t.antiOf y

/-- When the empty flag is set, no seg id holds any group. -/
def EmptyConsistent (t : UnmergeTracker) : Prop :=
  t.isEmptyFlag = true → ∀ x, t.segToGroups x = none

/-- Maximum seed id of a pre-supplied segmentation
(std::max_element over the voxel data in frontend_agglomerate.cpp line 53;
the C++ call presumes a non-empty volume). -/
def maxSeg (seg : List Nat) : Nat := seg.foldl max 0

/-- One iteration of the size-counting loop: sizes[v]++. -/
def bumpCount (acc : List Nat) (v : Nat) : List Nat := acc.set v (acc.getD v 0 + 1)

/-- Size counting of the findFragments = false branch
(frontend_agglomerate.cpp lines 53-56): resize to maxId + 1 zeros, then one
increment per voxel. -/
def computeSizes (seg : List Nat) : List Nat :=
  seg.foldl bumpCount (List.replicate (maxSeg seg + 1) 0)

/-- Branch structure around watershed (frontend_agglomerate.cpp lines
47-57): with findFragments the watershed output is used, otherwise the
sizes are computed directly from the given segmentation and watershed is
never consulted. -/
def initSizes (findFragments : Bool) (watershedSizes : List Nat) (seg : List Nat) : List Nat :=
  if findFragments then watershedSizes else computeSizes seg

/-- Observable outcome of the context set-up. -/
structure InitResult where
  sizes : List Nat
  unmergeList : UnmergeGroupListTupleList
deriving DecidableEq

/-- Tail of the frontend set-up call (frontend_agglomerate.cpp lines 47-57
and 107).  The statement context->unmergeList = *unmergeList dereferences
the pointer argument unconditionally even though the declaration (header
line 313) defaults it to NULL; the NULL argument is modelled as none and
the dereference of it as an error. -/
def initFrontend (findFragments : Bool) (watershedSizes : List Nat) (segData : List Nat)
    (unmergeList : Option UnmergeGroupListTupleList) : Except Unit InitResult :=
  match unmergeList with
  | none => Except.error ()
  | some ul => Except.ok ⟨initSizes findFragments watershedSizes segData, ul⟩

/-- Registry of WaterzContext (header lines 65-116): the static id map is
modelled by the list of currently present ids together with the next id to
issue.  The stored payload pointers play no role in the registry logic and
are abstracted away; get returns the id itself in place of the pointer. -/
structure Registry where
  contexts : List Nat
  nextId : Nat
deriving DecidableEq

/-- Initial static state: empty map, _nextId = 0. -/
def Registry.empty : Registry := ⟨[], 0⟩

/-- createNew (header lines 69-77): insert the next id and bump the counter;
the issued id is returned alongside. -/
def Registry.createNew (r : Registry) : Registry × Nat :=
  (⟨r.nextId :: r.contexts, r.nextId + 1⟩, r.nextId)

/-- get (header lines 79-85): NULL, modelled as none, when the id is not a
key of the map. -/
def Registry.get (r : Registry) (i : Nat) : Option Nat :=
  if i ∈ r.contexts then some i else none

/-- free (header lines 87-96): erase and delete only when get found the id. -/
def Registry.free (r : Registry) (i : Nat) : Registry :=
  match r.get i with
  | none => r
  | some _ => ⟨r.contexts.filter (fun x => x != i), r.nextId⟩

/-- Registry states produced by the static initialization followed by any
sequence of createNew and free calls. -/
inductive RegReachable : Registry → Prop
  | base : RegReachable Registry.empty
  | createNew (r : Registry) : RegReachable r → RegReachable r.createNew.1
  | free (r : Registry) (i : Nat) : RegReachable r → RegReachable (r.free i)

abbrev EdgeId := Nat

/-- Edge of the region graph: endpoints and the affinity statistic. -/
structure EdgeRec where
  eid : EdgeId
  u : SegID
  v : SegID
  stat : ℚ
deriving DecidableEq

/-- Merge record of the history (header lines 39-45). -/
structure Merge where
  a : SegID
  b : SegID
  c : SegID
  score : ℚ
deriving DecidableEq

/-- Association lookup on the parent-link list. -/
def plookup : List (Nat × Nat) → Nat → Option Nat
  | [], _ => none
  | (a, b) :: r, x => if x = a then some b else plookup r x

/-- Fuelled walk along parent links. -/
def resolveAux : Nat → List (Nat × Nat) → Nat → Nat
  | 0, _, x => x
  | f + 1, p, x =>
    match plookup p x with
    | none => x
    | some y => resolveAux f p y

/-- Modelled from the spec: resolve of spec 4.1, the live root of a node in
the parent-link forest (path compression is a performance detail with no
observable effect on the returned root and is omitted).  Fuel length + 1
suffices for the well-formed forests the engine builds, as proved below. -/
def resolve (p : List (Nat × Nat)) (x : Nat) : Nat := resolveAux (p.length + 1) p x

/-- Queue order: by score, ties by edge id (spec section 5, fixed tie-break
rules). -/
def qle (x y : ℚ × EdgeId) : Bool :=
  decide (x.1 < y.1) || (x.1 == y.1 && decide (x.2 ≤ y.2))

/-- Ordered insert into the score queue. -/
def pushQ : List (ℚ × EdgeId) → (ℚ × EdgeId) → List (ℚ × EdgeId)
  | [], e => [e]
  | f :: r, e => if qle e f then e :: f :: r else f :: pushQ r e

/-- RegionMergingVisitor.isValidMerge (header lines 271-275): true when no
tracker is installed, else delegate. -/
def trackerValid : Option UnmergeTracker → SegID → SegID → Bool
  | none, _, _ => true
  | some tr, a, b => tr.isValidMerge a b

/-- RegionMergingVisitor.onMerge (header lines 266-269): delegate to the
tracker when one is installed. -/
def trackerOnMerge : Option UnmergeTracker → SegID → SegID → SegID → Option UnmergeTracker
  | none, _, _, _ => none
  | some tr, a, b, c => some (tr.onMerge a b c)

/-- Modelled from the spec: the state of the iterative region merging engine
(backend/IterativeRegionMerging.hpp is not among the source files).  It
holds the statistic combine operation of the configured statistics provider
(spec 4.2), the live edge set, the parent-link forest, the score queue and
the visitor tracker. -/
structure EngineState where
  combine : ℚ → ℚ → ℚ
  score : ℚ → ℚ
  edges : List EdgeRec
  parent : List (Nat × Nat)
  queue : List (ℚ × EdgeId)
  tracker : Option UnmergeTracker

/-- Modelled from the spec: the scoring function (ScoringFunction.h is
generated outside this repository and spec 4.3 leaves the statistic-to-
score mapping pluggable with ascending polarity, smaller score merging
first); the engine state carries the configured mapping and an edge scores
as the mapping of its statistic. -/
def scoreOf (s : EngineState) (e : EdgeRec) : ℚ := s.score e.stat

/-- Two edges connect the same pair of live endpoints. -/
def sameEnds (e1 e2 : EdgeRec) : Bool :=
  (e1.u == e2.u && e1.v == e2.v) || (e1.u == e2.v && e1.v == e2.u)

/-- Combine parallel edges after redirection (spec 4.1 merge_nodes): the
first edge of each parallel class keeps its id and absorbs the statistics of
its duplicates via the combine operation; the fuel is the list length. -/
def combineParallel (comb : ℚ → ℚ → ℚ) : Nat → List EdgeRec → List EdgeRec
  | 0, l => l
  | _ + 1, [] => []
  | f + 1, e :: r =>
    (((r.filter (fun e2 => sameEnds e e2)).foldl
        (fun acc d => { acc with stat := comb acc.stat d.stat }) e)) ::
      combineParallel comb f (r.filter (fun e2 => !sameEnds e e2))

/-- Score an edge carried before the merge (by id), for the improvement test
of spec 4.5 step 8. -/
def oldScore (s : EngineState) (e : EdgeRec) : ℚ :=
  match s.edges.find? (fun o => o.eid == e.eid) with
  | some o => scoreOf s o
  | none => scoreOf s e

/-- Modelled from the spec: one merge (spec 4.1 merge_nodes plus 4.5 step 8
and 9).  Survivor is the smaller root id; the loser link is recorded; edges
incident to the loser are redirected, self-loops dropped, parallel edges
combined; surviving edges incident to the survivor whose score improved get
a fresh queue entry; the visitor notifies the tracker. -/
def doMerge (s : EngineState) (ed : EdgeRec) (sc : ℚ) (ru rv : SegID) : EngineState × Merge :=
  let survivor := min ru rv
  let loser := max ru rv
  let others := s.edges.filter (fun e => e.eid != ed.eid)
  let redirected := others.map (fun e =>
    { e with u := if e.u = loser then survivor else e.u,
             v := if e.v = loser then survivor else e.v })
  let noLoops := redirected.filter (fun e => e.u != e.v)
  let merged := combineParallel s.combine noLoops.length noLoops
  let improved := merged.filter (fun e =>
    (e.u == survivor || e.v == survivor) && decide (scoreOf s e < oldScore s e))
  ({ s with
      edges := merged,
      parent := (loser, survivor) :: s.parent,
      queue := improved.foldl (fun q e => pushQ q (scoreOf s e, e.eid)) s.queue,
      tracker := trackerOnMerge s.tracker ru rv survivor },
   ⟨ru, rv, survivor, sc⟩)

/-- Drop a deleted or rejected edge: consume the queue entry and remove the
edge from the live set so it is never retried (spec 4.5 steps 6 and 7). -/
def dropEdge (s : EngineState) (e : EdgeId) (rest : List (ℚ × EdgeId)) : EngineState :=
  { s with queue := rest, edges := s.edges.filter (fun x => x.eid != e) }

/-- Modelled from the spec: one iteration of the merge loop of spec 4.5.
none means the run terminates (queue empty, or the best current score
exceeds the threshold; in the latter case the popped entry is pushed back,
which for the sorted queue reproduces the pre-pop queue, so the state is
returned unchanged).  The threshold appears in exactly one comparison. -/
def step (t : ℚ) (s : EngineState) : Option (EngineState × Option Merge) :=
  match s.queue with
  | [] => none
  | (sc, e) :: rest =>
    match s.edges.find? (fun ed => ed.eid == e) with
    | none => some ({ s with queue := rest }, none)
    | some ed =>
      if scoreOf s ed ≠ sc then
        some ({ s with queue := pushQ rest (scoreOf s ed, e) }, none)
      else if t < scoreOf s ed then
        none
      else if resolve s.parent ed.u = resolve s.parent ed.v then
        some (dropEdge s e rest, none)
      else if trackerValid s.tracker (resolve s.parent ed.u) (resolve s.parent ed.v) then
        some ((doMerge { s with queue := rest } ed sc (resolve s.parent ed.u)
                (resolve s.parent ed.v)).1,
              some (doMerge { s with queue := rest } ed sc (resolve s.parent ed.u)
                (resolve s.parent ed.v)).2)
      else some (dropEdge s e rest, none)

/-- Modelled from the spec: the fuelled merge loop; returns the final engine
state and the merge history in order. -/
def run (t : ℚ) : Nat → EngineState → EngineState × List Merge
  | 0, s => (s, [])
  | n + 1, s =>
    match step t s with
    | none => (s, [])
    | some (s2, om) =>
      let p := run t n s2
      (p.1, om.toList ++ p.2)

/-- The run with this fuel actually reached the termination condition. -/
def Finished (t : ℚ) (n : Nat) (s : EngineState) : Prop :=
  step t (run t n s).1 = none

/-- Context of one agglomeration run as the frontend keeps it: the engine,
the borrowed segmentation volume (flattened voxel list) and the stored
unmerge list. -/
structure Ctx where
  engine : EngineState
  seg : List Nat
  unmergeList : UnmergeGroupListTupleList

/-- mergeUntil of frontend_agglomerate.cpp lines 112-157: a fresh
UnmergeTracker is built from the stored unmerge list on every call (lines
124-127), the engine runs, and the segmentation volume is rewritten in
place through resolve only when at least one merge happened (lines
135-140, the merged count equals the history length since the history
visitor records exactly one entry per merge). -/
def fmergeUntil (c : Ctx) (t : ℚ) (fuel : Nat) : Ctx × List Merge :=
  let s0 :=
    { c.engine with
        tracker :=
          if c.unmergeList.length ≠ 0 then some (mkUnmergeTracker c.unmergeList) else none }
  let r := run t fuel s0
  let seg2 := if r.2.length ≠ 0 then c.seg.map (resolve r.1.parent) else c.seg
  ({ engine := r.1, seg := seg2, unmergeList := c.unmergeList }, r.2)

/-- Full run observed by a caller: the merge history of one mergeUntil on a
set-up context. -/
def fullRun (c : Ctx) (t : ℚ) (fuel : Nat) : List Merge :=
  (fmergeUntil c t fuel).2

/-- Concrete engine over the three-seed chain 1 - 2 - 3: edge 0 joins seeds
2 and 3 with affinity statistic 1 (score -1), edge 1 joins seeds 1 and 2
with affinity statistic 0 (score 0); max-affinity statistic with negation
scoring, queue in score order. -/
def exEngine : EngineState :=
  { combine := fun x y => max x y,
    score := fun x => -x,
    edges := [⟨0, 2, 3, 1⟩, ⟨1, 1, 2, 0⟩],
    parent := [],
    queue := [(-1, 0), (0, 1)],
    tracker := none }

/-- The chain context with the anti-merge constraint that seed 1 must never
join seed 3. -/
def exCtx : Ctx := { engine := exEngine, seg := [1, 2, 3], unmergeList := [[[1], [3]]] }

/-- The chain context without constraints. -/
def exCtx0 : Ctx := { engine := exEngine, seg := [1, 2, 3], unmergeList := [] }

/-- Well-formed parent-link list, in construction order (newest link first):
each recorded link joins two ids that were both live, hence not keys, in
the older part, and links no id to itself. -/
inductive PWF : List (Nat × Nat) → Prop
  | nil : PWF []
  | cons {l s : Nat} {p : List (Nat × Nat)} (hp : PWF p) (hl : plookup p l = none)
      (hs : plookup p s = none) (hne : l ≠ s) : PWF ((l, s) :: p)

/-- Index of the first link whose key is x. -/
def keyIdx : List (Nat × Nat) → Nat → Option Nat
  | [], _ => none
  | (a, _) :: r, x => if x = a then some 0 else (keyIdx r x).map (· + 1)

/-- Position-decreasing property: the target of a link can be a key only at
a strictly smaller position (newer link). -/
def PosDec (p : List (Nat × Nat)) : Prop :=
  ∀ (i j : Nat) (hi : i < p.length) (hj : j < p.length),
    (p.get ⟨j, hj⟩).1 = (p.get ⟨i, hi⟩).2 → j < i

/-- Walk-length bound for resolve from a given start. -/
def chainBound (p : List (Nat × Nat)) (x : Nat) : Nat :=
  match keyIdx p x with
  | none => 0
  | some i => i + 1

theorem updAppend_self (m : GroupMap) (k : Nat) (v : List Nat) :
    updAppend m k v k = some ((m k).getD [] ++ v) := by
  simp [updAppend]

theorem updAppend_other (m : GroupMap) (k x : Nat) (v : List Nat) (h : x ≠ k) :
    updAppend m k v x = m x := by
  simp [updAppend, h]

theorem updAppend_isSome (m : GroupMap) (k x : Nat) (v : List Nat) :
    (updAppend m k v x).isSome ↔ (x = k ∨ (m x).isSome) := by
  by_cases h : x = k <;> simp [updAppend, h]

theorem updAppend_mem (m : GroupMap) (k x y : Nat) (v : List Nat) :
    y ∈ (updAppend m k v x).getD [] ↔
      (y ∈ (m x).getD [] ∨ (x = k ∧ y ∈ v)) := by
  by_cases h : x = k
  · subst h; simp [updAppend]
  · simp [updAppend, h]

theorem antiFoldInner_mem (ml : List Nat) (l : List Nat) :
    ∀ (m : GroupMap) (g y : Nat),
      y ∈ ((l.foldl (fun m1 gid => updAppend m1 gid (ml.filter (fun o => o != gid))) m) g).getD []
        ↔ (y ∈ (m g).getD [] ∨ (g ∈ l ∧ y ∈ ml ∧ y ≠ g)) := by
  induction l with
  | nil => intro m g y; simp
  | cons gid rest ih =>
    intro m g y
    rw [List.foldl_cons, ih]
    rw [updAppend_mem]
    simp only [List.mem_filter, bne_iff_ne, ne_eq, List.mem_cons, decide_eq_true_eq]
    by_cases hg : g = gid
    · subst hg; tauto
    · tauto

theorem addAntis_mem (m : GroupMap) (ml : List Nat) (g y : Nat) :
    y ∈ ((addAntis m ml) g).getD [] ↔
      (y ∈ (m g).getD [] ∨ (g ∈ ml ∧ y ∈ ml ∧ y ≠ g)) :=
  antiFoldInner_mem ml ml m g y

theorem antisFold_mem (L : UnmergeGroupListTupleList) :
    ∀ (m : GroupMap) (g y : Nat),
      y ∈ ((L.foldl (fun m1 tup => addAntis m1 (tup.map headGroupId)) m) g).getD []
        ↔ (y ∈ (m g).getD [] ∨
            ∃ tup ∈ L, g ∈ tup.map headGroupId ∧ y ∈ tup.map headGroupId ∧ y ≠ g) := by
  induction L with
  | nil => intro m g y; simp
  | cons tup rest ih =>
    intro m g y
    rw [List.foldl_cons, ih, addAntis_mem]
    constructor
    · rintro ((h | h) | ⟨t2, ht2, h⟩)
      · exact Or.inl h
      · exact Or.inr ⟨tup, List.mem_cons_self tup rest, h⟩
      · exact Or.inr ⟨t2, List.mem_cons_of_mem tup ht2, h⟩
    · rintro (h | ⟨t2, ht2, h⟩)
      · exact Or.inl (Or.inl h)
      · rcases List.mem_cons.1 ht2 with rfl | ht2r
        · exact Or.inl (Or.inr h)
        · exact Or.inr ⟨t2, ht2r, h⟩

theorem antiOf_mk_mem (L : UnmergeGroupListTupleList) (g y : Nat) :
    y ∈ (mkUnmergeTracker L).antiOf g ↔
      ∃ tup ∈ L, g ∈ tup.map headGroupId ∧ y ∈ tup.map headGroupId ∧ y ≠ g := by
  by_cases hL : L = []
  · subst hL; simp [mkUnmergeTracker, UnmergeTracker.antiOf]
  · rw [UnmergeTracker.antiOf]
    simp only [mkUnmergeTracker, if_neg hL]
    rw [antisFold_mem]
    simp

theorem antiFoldInner_isSome (ml : List Nat) (l : List Nat) :
    ∀ (m : GroupMap) (g : Nat),
      ((l.foldl (fun m1 gid => updAppend m1 gid (ml.filter (fun o => o != gid))) m) g).isSome
        ↔ ((m g).isSome ∨ g ∈ l) := by
  induction l with
  | nil => intro m g; simp
  | cons gid rest ih =>
    intro m g
    rw [List.foldl_cons, ih, updAppend_isSome]
    simp only [List.mem_cons]
    tauto

theorem addAntis_isSome (m : GroupMap) (ml : List Nat) (g : Nat) :
    (addAntis m ml g).isSome ↔ ((m g).isSome ∨ g ∈ ml) :=
  antiFoldInner_isSome ml ml m g

theorem antisFold_isSome (L : UnmergeGroupListTupleList) :
    ∀ (m : GroupMap) (g : Nat),
      ((L.foldl (fun m1 tup => addAntis m1 (tup.map headGroupId)) m) g).isSome
        ↔ ((m g).isSome ∨ ∃ tup ∈ L, g ∈ tup.map headGroupId) := by
  induction L with
  | nil => intro m g; simp
  | cons tup rest ih =>
    intro m g
    rw [List.foldl_cons, ih, addAntis_isSome]
    constructor
    · rintro ((h | h) | ⟨t2, ht2, h⟩)
      · exact Or.inl h
      · exact Or.inr ⟨tup, List.mem_cons_self tup rest, h⟩
      · exact Or.inr ⟨t2, List.mem_cons_of_mem tup ht2, h⟩
    · rintro (h | ⟨t2, ht2, h⟩)
      · exact Or.inl (Or.inl h)
      · rcases List.mem_cons.1 ht2 with rfl | ht2r
        · exact Or.inl (Or.inr h)
        · exact Or.inr ⟨t2, ht2r, h⟩

theorem segFoldSeed_mem (hg : Nat) (l : List Nat) :
    ∀ (m : GroupMap) (x g : Nat),
      g ∈ ((l.foldl (fun m2 sid => updAppend m2 sid [hg]) m) x).getD []
        ↔ (g ∈ (m x).getD [] ∨ (x ∈ l ∧ g = hg)) := by
  induction l with
  | nil => intro m x g; simp
  | cons sid rest ih =>
    intro m x g
    rw [List.foldl_cons, ih, updAppend_mem]
    simp only [List.mem_singleton, List.mem_cons]
    tauto

theorem addSegGroups_mem (tup : List (List Nat)) :
    ∀ (m : GroupMap) (x g : Nat),
      g ∈ ((addSegGroups m tup) x).getD []
        ↔ (g ∈ (m x).getD [] ∨ ∃ sl ∈ tup, x ∈ sl ∧ g = headGroupId sl) := by
  induction tup with
  | nil => intro m x g; simp [addSegGroups]
  | cons sl rest ih =>
    intro m x g
    rw [show addSegGroups m (sl :: rest)
          = addSegGroups (sl.foldl (fun m2 sid => updAppend m2 sid [headGroupId sl]) m) rest
        from rfl]
    rw [ih, segFoldSeed_mem]
    constructor
    · rintro ((h | h) | ⟨s2, hs2, h⟩)
      · exact Or.inl h
      · exact Or.inr ⟨sl, List.mem_cons_self sl rest, h⟩
      · exact Or.inr ⟨s2, List.mem_cons_of_mem sl hs2, h⟩
    · rintro (h | ⟨s2, hs2, h⟩)
      · exact Or.inl (Or.inl h)
      · rcases List.mem_cons.1 hs2 with rfl | hs2r
        · exact Or.inl (Or.inr h)
        · exact Or.inr ⟨s2, hs2r, h⟩

theorem segFold_mem (L : UnmergeGroupListTupleList) :
    ∀ (m : GroupMap) (x g : Nat),
      g ∈ ((L.foldl (fun m1 tup => addSegGroups m1 tup) m) x).getD []
        ↔ (g ∈ (m x).getD [] ∨ ∃ tup ∈ L, ∃ sl ∈ tup, x ∈ sl ∧ g = headGroupId sl) := by
  induction L with
  | nil => intro m x g; simp
  | cons tup rest ih =>
    intro m x g
    rw [List.foldl_cons, ih, addSegGroups_mem]
    constructor
    · rintro ((h | h) | ⟨t2, ht2, h⟩)
      · exact Or.inl h
      · exact Or.inr ⟨tup, List.mem_cons_self tup rest, h⟩
      · exact Or.inr ⟨t2, List.mem_cons_of_mem tup ht2, h⟩
    · rintro (h | ⟨t2, ht2, h⟩)
      · exact Or.inl (Or.inl h)
      · rcases List.mem_cons.1 ht2 with rfl | ht2r
        · exact Or.inl (Or.inr h)
        · exact Or.inr ⟨t2, ht2r, h⟩

theorem getGroupIDs_mk_mem (L : UnmergeGroupListTupleList) (x g : Nat) :
    g ∈ (mkUnmergeTracker L).getGroupIDs x
      ↔ ∃ tup ∈ L, ∃ sl ∈ tup, x ∈ sl ∧ g = headGroupId sl := by
  by_cases hL : L = []
  · subst hL; simp [mkUnmergeTracker, UnmergeTracker.getGroupIDs]
  · rw [UnmergeTracker.getGroupIDs]
    simp only [mkUnmergeTracker, if_neg hL]
    rw [segFold_mem]
    simp

theorem mk_isEmptyFlag (L : UnmergeGroupListTupleList) :
    (mkUnmergeTracker L).isEmptyFlag = true ↔ L = [] := by
  by_cases hL : L = [] <;> simp [mkUnmergeTracker, hL]

theorem mk_antiKeysComplete (L : UnmergeGroupListTupleList) :
    AntiKeysComplete (mkUnmergeTracker L) := by
  intro x g hg
  rw [getGroupIDs_mk_mem] at hg
  obtain ⟨tup, htup, sl, hsl, _, rfl⟩ := hg
  by_cases hL : L = []
  · subst hL; exact absurd htup (List.not_mem_nil tup)
  · show ((mkUnmergeTracker L).groupToAnti (headGroupId sl)).isSome
    simp only [mkUnmergeTracker, if_neg hL]
    rw [antisFold_isSome]
    exact Or.inr ⟨tup, htup, List.mem_map_of_mem headGroupId hsl⟩

theorem scanAnti_iff (antis gbs : List Nat) :
    scanAnti antis gbs = true ↔ ∃ b ∈ gbs, b ∈ antis := by
  simp only [scanAnti, List.any_eq_true, beq_iff_eq]
  constructor
  · rintro ⟨b, hb, x, hx, rfl⟩; exact ⟨x, hb, hx⟩
  · rintro ⟨b, hb, hmem⟩; exact ⟨b, hb, b, hmem, rfl⟩

theorem isValidAux_eq_false_iff (t : UnmergeTracker) (gbs : List Nat) (gas : List Nat) :
    ∀ (acc : List Nat), (∀ ga ∈ gas, (t.groupToAnti ga).isSome) →
      (isValidAux t gbs acc gas = false ↔
        ∃ ga ∈ gas, ∃ gb ∈ gbs, gb ∈ t.antiOf ga) := by
  induction gas with
  | nil => intro acc _; simp [isValidAux]
  | cons ga rest ih =>
    intro acc h
    obtain ⟨l, hl⟩ := Option.isSome_iff_exists.1 (h ga (List.mem_cons_self ga rest))
    have hanti : t.antiOf ga = l := by rw [UnmergeTracker.antiOf, hl]; rfl
    rw [show isValidAux t gbs acc (ga :: rest)
          = (if scanAnti (match t.groupToAnti ga with | some l2 => l2 | none => acc) gbs
              then false
              else isValidAux t gbs
                (match t.groupToAnti ga with | some l2 => l2 | none => acc) rest)
        from rfl]
    rw [hl]
    by_cases hscan : scanAnti l gbs = true
    · rw [if_pos hscan]
      obtain ⟨b, hb, hmem⟩ := (scanAnti_iff l gbs).1 hscan
      simp only [List.mem_cons]
      constructor
      · intro _
        exact ⟨ga, Or.inl rfl, b, hb, by rw [hanti]; exact hmem⟩
      · intro _; trivial
    · rw [if_neg hscan]
      rw [ih l (fun g2 hg2 => h g2 (List.mem_cons_of_mem ga hg2))]
      simp only [List.mem_cons]
      constructor
      · rintro ⟨g2, hg2, gb, hgb, hmem⟩
        exact ⟨g2, Or.inr hg2, gb, hgb, hmem⟩
      · rintro ⟨g2, hg2, gb, hgb, hmem⟩
        rcases hg2 with rfl | hg2
        · exact absurd ((scanAnti_iff l gbs).2 ⟨gb, hgb, by rw [hanti] at hmem; exact hmem⟩) hscan
        · exact ⟨g2, hg2, gb, hgb, hmem⟩

theorem isValidMerge_eq_false_iff (t : UnmergeTracker) (hc : AntiKeysComplete t)
    (hflag : t.isEmptyFlag = false) (a b : SegID) :
    t.isValidMerge a b = false ↔
      ∃ ga ∈ t.getGroupIDs a, ∃ gb ∈ t.getGroupIDs b, gb ∈ t.antiOf ga := by
  rw [UnmergeTracker.isValidMerge, if_neg (by simp [hflag])]
  exact isValidAux_eq_false_iff t (t.getGroupIDs b) (t.getGroupIDs a) []
    (fun ga hga => hc a ga hga)

theorem onMerge_groupToAnti (t : UnmergeTracker) (a b c : SegID) :
    (t.onMerge a b c).groupToAnti = t.groupToAnti := by
  rw [UnmergeTracker.onMerge]
  split_ifs <;> rfl

theorem onMerge_isEmptyFlag (t : UnmergeTracker) (a b c : SegID) :
    (t.onMerge a b c).isEmptyFlag = t.isEmptyFlag := by
  rw [UnmergeTracker.onMerge]
  split_ifs <;> rfl

theorem onMerge_antiOf (t : UnmergeTracker) (a b c g : SegID) :
    (t.onMerge a b c).antiOf g = t.antiOf g := by
  rw [UnmergeTracker.antiOf, UnmergeTracker.antiOf, onMerge_groupToAnti]

theorem onMerge_getGroupIDs_subset (t : UnmergeTracker) (a b c x : SegID) :
    ∀ g, g ∈ (t.onMerge a b c).getGroupIDs x →
      (g ∈ t.getGroupIDs x ∨ g ∈ t.getGroupIDs a ∨ g ∈ t.getGroupIDs b) := by
  intro g hg
  rw [UnmergeTracker.onMerge] at hg
  split_ifs at hg with h1 h2
  · exact Or.inl hg
  · rw [UnmergeTracker.getGroupIDs] at hg
    by_cases hx : x = c
    · simp only [if_pos hx] at hg
      rcases List.mem_append.1 hg with h | h
      · exact Or.inr (Or.inl h)
      · exact Or.inr (Or.inr h)
    · simp only [if_neg hx] at hg
      exact Or.inl hg
  · exact Or.inl hg

theorem reachable_antiKeysComplete (t : UnmergeTracker) (hr : Reachable t) :
    AntiKeysComplete t := by
  induction hr with
  | base L => exact mk_antiKeysComplete L
  | merge t2 a b c _ _ ih =>
    intro x g hg
    rw [onMerge_groupToAnti]
    rcases onMerge_getGroupIDs_subset t2 a b c x g hg with h | h | h
    · exact ih x g h
    · exact ih a g h
    · exact ih b g h

theorem reachable_emptyConsistent (t : UnmergeTracker) (hr : Reachable t) :
    EmptyConsistent t := by
  induction hr with
  | base L =>
    intro hflag x
    have hL : L = [] := (mk_isEmptyFlag L).1 hflag
    subst hL
    simp [mkUnmergeTracker]
  | merge t2 a b c _ _ ih =>
    intro hflag x
    have hflag2 : t2.isEmptyFlag = true := by
      rw [← onMerge_isEmptyFlag t2 a b c]; exact hflag
    have heq : t2.onMerge a b c = t2 := by
      rw [UnmergeTracker.onMerge, if_pos hflag2]
    rw [heq]
    exact ih hflag2 x

theorem reachable_antiSymm (t : UnmergeTracker) (hr : Reachable t) :
    AntiSymmRel t := by
  induction hr with
  | base L =>
    intro g y hy
    obtain ⟨tup, htup, hg, hy2, hne⟩ := (antiOf_mk_mem L g y).1 hy
    exact (antiOf_mk_mem L y g).2 ⟨tup, htup, hy2, hg, Ne.symm hne⟩
  | merge t2 a b c _ _ ih =>
    intro g y hy
    rw [onMerge_antiOf] at hy ⊢
    exact ih g y hy

/-- Group lists of a and b are concatenated onto the survivor by onMerge
for reachable trackers. -/
theorem onMerge_groups_concat (t : UnmergeTracker) (a b c : SegID) (hr : Reachable t)
    (hc : c = a ∨ c = b) :
    (t.onMerge a b c).getGroupIDs c = t.getGroupIDs a ++ t.getGroupIDs b := by
  by_cases hflag : t.isEmptyFlag = true
  · have hec := reachable_emptyConsistent t hr hflag
    have heq : t.onMerge a b c = t := by rw [UnmergeTracker.onMerge, if_pos hflag]
    rw [heq]
    rw [UnmergeTracker.getGroupIDs, UnmergeTracker.getGroupIDs, UnmergeTracker.getGroupIDs]
    rw [hec a, hec b, hec c]
    rfl
  · rw [UnmergeTracker.onMerge, if_neg hflag]
    by_cases hlen : (t.getGroupIDs a ++ t.getGroupIDs b).length ≠ 0
    · rw [if_pos hlen]
      rw [UnmergeTracker.getGroupIDs]
      simp
    · rw [if_neg hlen]
      push_neg at hlen
      rw [List.length_eq_zero] at hlen
      rcases List.append_eq_nil.1 hlen with ⟨ha, hb⟩
      rw [hlen]
      rcases hc with rfl | rfl
      · exact ha
      · exact hb

/-- Claim C2: for every pair of seg ids (a, b) and every tracker built by the
constructor, isValidMerge a b returns false if and only if some group id in
the group list of a has an anti-partner group id appearing in the group
list of b; otherwise it returns true. -/
theorem isValidMerge_iff_conflict (L : UnmergeGroupListTupleList) (a b : SegID) :
    (mkUnmergeTracker L).isValidMerge a b = false ↔
      ∃ ga ∈ (mkUnmergeTracker L).getGroupIDs a,
        ∃ gb ∈ (mkUnmergeTracker L).getGroupIDs b,
          gb ∈ (mkUnmergeTracker L).antiOf ga := by
  by_cases hL : L = []
  · subst hL
    simp [mkUnmergeTracker, UnmergeTracker.isValidMerge, UnmergeTracker.getGroupIDs]
  · have hflag : (mkUnmergeTracker L).isEmptyFlag = false := by
      cases h : (mkUnmergeTracker L).isEmptyFlag
      · rfl
      · exact absurd ((mk_isEmptyFlag L).1 h) hL
    exact isValidMerge_eq_false_iff (mkUnmergeTracker L) (mk_antiKeysComplete L) hflag a b

/-- Claim C5 counterexample: in the tuple of the unmerge list
[[[1], [1, 2]]] the coherent groups [1] and [1, 2] are distinct, so the
claim as stated requires the group id of [1] to appear in the anti list of
the group id of [1, 2]; but both groups have group id 1 and the constructor
(other != groupid, header line 163) never records a group id as its own
anti, so the anti list of 1 stays empty. -/
theorem unmerge_anti_pairs_cex :
    [[1], [1, 2]] ∈ ([[[1], [1, 2]]] : UnmergeGroupListTupleList) ∧
    [1, 2] ∈ [[1], [1, 2]] ∧ [1] ∈ [[1], [1, 2]] ∧ ([1] : List Nat) ≠ [1, 2] ∧
    ¬ (headGroupId [1] ∈ (mkUnmergeTracker [[[1], [1, 2]]]).antiOf (headGroupId [1, 2])) := by
  decide

/-- Claim C5 (amended): after construction from the unmerge list, for every
tuple in the list and every coherent group G in that tuple, the anti list
of the group id of G (its first seed id) contains the group id of every
other coherent group of the same tuple whose group id differs from that of
G. -/
theorem unmerge_anti_pairs (L : UnmergeGroupListTupleList) (tup : List (List Nat))
    (G G' : List Nat) (htup : tup ∈ L) (hG : G ∈ tup) (hG' : G' ∈ tup)
    (hGne : G ≠ []) (hG'ne : G' ≠ [])
    (hne : headGroupId G' ≠ headGroupId G) :
    headGroupId G' ∈ (mkUnmergeTracker L).antiOf (headGroupId G) :=
  (antiOf_mk_mem L (headGroupId G) (headGroupId G')).2
    ⟨tup, htup, List.mem_map_of_mem headGroupId hG, List.mem_map_of_mem headGroupId hG', hne⟩

/-- Witness for the amended claim C5 at the unmerge list [[[1], [2]]]. -/
theorem unmerge_anti_pairs_witness :
    ([[1], [2]] ∈ ([[[1], [2]]] : UnmergeGroupListTupleList)) ∧ [1] ∈ [[1], [2]] ∧
    [2] ∈ [[1], [2]] ∧ ([1] : List Nat) ≠ [] ∧ ([2] : List Nat) ≠ [] ∧
    headGroupId [2] ≠ headGroupId [1] ∧
    headGroupId [2] ∈ (mkUnmergeTracker [[[1], [2]]]).antiOf (headGroupId [1]) :=
  ⟨by decide, by decide, by decide, by decide, by decide, by decide,
   unmerge_anti_pairs [[[1], [2]]] [[1], [2]] [1] [2] (by decide) (by decide) (by decide)
     (by decide) (by decide) (by decide)⟩

/-- Claim C6: for reachable trackers and survivor c equal to a or b, onMerge
sets the group list of c to the concatenation (duplicates allowed) of the
group lists of a and b, and afterwards isValidMerge of c against any x is
correct with respect to the merged group membership: it rejects exactly
when some group of the concatenation has an anti among the groups of x. -/
theorem onMerge_union_correct (t : UnmergeTracker) (a b c : SegID)
    (hr : Reachable t) (hc : c = a ∨ c = b) :
    (t.onMerge a b c).getGroupIDs c = t.getGroupIDs a ++ t.getGroupIDs b ∧
    ∀ x, ((t.onMerge a b c).isValidMerge c x = false ↔
      ∃ g ∈ t.getGroupIDs a ++ t.getGroupIDs b,
        ∃ g2 ∈ (t.onMerge a b c).getGroupIDs x, g2 ∈ t.antiOf g) := by
  have hpart1 := onMerge_groups_concat t a b c hr hc
  refine ⟨hpart1, fun x => ?_⟩
  by_cases hflag : t.isEmptyFlag = true
  · have heq : t.onMerge a b c = t := by rw [UnmergeTracker.onMerge, if_pos hflag]
    have hec := reachable_emptyConsistent t hr hflag
    rw [heq]
    rw [UnmergeTracker.isValidMerge, if_pos hflag]
    constructor
    · intro h; simp at h
    · rintro ⟨g, hg, _⟩
      rw [UnmergeTracker.getGroupIDs, UnmergeTracker.getGroupIDs, hec a, hec b] at hg
      simp at hg
  · have hr2 : Reachable (t.onMerge a b c) := Reachable.merge t a b c hr hc
    have hflag2 : (t.onMerge a b c).isEmptyFlag = false := by
      rw [onMerge_isEmptyFlag]
      cases h2 : t.isEmptyFlag
      · rfl
      · exact absurd h2 hflag
    rw [isValidMerge_eq_false_iff (t.onMerge a b c) (reachable_antiKeysComplete _ hr2) hflag2]
    rw [hpart1]
    constructor
    · rintro ⟨g, hg, g2, hg2, hmem⟩
      rw [onMerge_antiOf] at hmem
      exact ⟨g, hg, g2, hg2, hmem⟩
    · rintro ⟨g, hg, g2, hg2, hmem⟩
      exact ⟨g, hg, g2, hg2, by rw [onMerge_antiOf]; exact hmem⟩

/-- Witness for claim C6 at the tracker of [[[1], [2]]] merging 1 and 2 with
survivor 1. -/
theorem onMerge_union_correct_witness :
    Reachable (mkUnmergeTracker [[[1], [2]]]) ∧ ((1 : SegID) = 1 ∨ (1 : SegID) = 2) ∧
    (((mkUnmergeTracker [[[1], [2]]]).onMerge 1 2 1).getGroupIDs 1
        = (mkUnmergeTracker [[[1], [2]]]).getGroupIDs 1
          ++ (mkUnmergeTracker [[[1], [2]]]).getGroupIDs 2 ∧
      ∀ x, (((mkUnmergeTracker [[[1], [2]]]).onMerge 1 2 1).isValidMerge 1 x = false ↔
        ∃ g ∈ (mkUnmergeTracker [[[1], [2]]]).getGroupIDs 1
            ++ (mkUnmergeTracker [[[1], [2]]]).getGroupIDs 2,
          ∃ g2 ∈ ((mkUnmergeTracker [[[1], [2]]]).onMerge 1 2 1).getGroupIDs x,
            g2 ∈ (mkUnmergeTracker [[[1], [2]]]).antiOf g)) :=
  ⟨Reachable.base _, Or.inl rfl,
   onMerge_union_correct (mkUnmergeTracker [[[1], [2]]]) 1 2 1 (Reachable.base _) (Or.inl rfl)⟩

/-- Claim C8: for every tracker state reachable by construction and onMerge
calls, isValidMerge is symmetric in its two arguments. -/
theorem isValidMerge_symm (t : UnmergeTracker) (hr : Reachable t) (a b : SegID) :
    t.isValidMerge a b = t.isValidMerge b a := by
  by_cases hflag : t.isEmptyFlag = true
  · rw [UnmergeTracker.isValidMerge, UnmergeTracker.isValidMerge, if_pos hflag, if_pos hflag]
  · have hflag2 : t.isEmptyFlag = false := by
      cases h2 : t.isEmptyFlag
      · rfl
      · exact absurd h2 hflag
    have hcomp := reachable_antiKeysComplete t hr
    have hsym := reachable_antiSymm t hr
    have hiff : t.isValidMerge a b = false ↔ t.isValidMerge b a = false := by
      rw [isValidMerge_eq_false_iff t hcomp hflag2 a b,
        isValidMerge_eq_false_iff t hcomp hflag2 b a]
      constructor
      · rintro ⟨ga, hga, gb, hgb, hmem⟩
        exact ⟨gb, hgb, ga, hga, hsym ga gb hmem⟩
      · rintro ⟨gb, hgb, ga, hga, hmem⟩
        exact ⟨ga, hga, gb, hgb, hsym gb ga hmem⟩
    cases h1 : t.isValidMerge a b <;> cases h2 : t.isValidMerge b a <;> simp_all

/-- Witness for claim C8 at the tracker of [[[1], [2]]]. -/
theorem isValidMerge_symm_witness :
    Reachable (mkUnmergeTracker [[[1], [2]]]) ∧
    (mkUnmergeTracker [[[1], [2]]]).isValidMerge 1 2
      = (mkUnmergeTracker [[[1], [2]]]).isValidMerge 2 1 :=
  ⟨Reachable.base _, isValidMerge_symm (mkUnmergeTracker [[[1], [2]]]) (Reachable.base _) 1 2⟩

theorem bumpCount_length (acc : List Nat) (v : Nat) :
    (bumpCount acc v).length = acc.length := by
  simp [bumpCount]

theorem foldl_bumpCount_length (l : List Nat) :
    ∀ acc : List Nat, (l.foldl bumpCount acc).length = acc.length := by
  induction l with
  | nil => intro acc; rfl
  | cons v rest ih =>
    intro acc
    rw [List.foldl_cons, ih, bumpCount_length]

theorem getD_set_same (l : List Nat) (w : Nat) :
    ∀ i : Nat, i < l.length → (l.set i w).getD i 0 = w := by
  induction l with
  | nil => intro i hi; exact absurd hi (by simp)
  | cons a rest ih =>
    intro i hi
    cases i with
    | zero => rfl
    | succ j =>
      rw [List.set_cons_succ, List.getD_cons_succ]
      exact ih j (by simpa using hi)

theorem getD_set_other (l : List Nat) (w : Nat) :
    ∀ i j : Nat, i ≠ j → (l.set i w).getD j 0 = l.getD j 0 := by
  induction l with
  | nil => intro i j _; rfl
  | cons a rest ih =>
    intro i j hij
    cases i with
    | zero =>
      cases j with
      | zero => exact absurd rfl hij
      | succ j2 => rfl
    | succ i2 =>
      cases j with
      | zero => rfl
      | succ j2 =>
        rw [List.set_cons_succ, List.getD_cons_succ, List.getD_cons_succ]
        exact ih i2 j2 (fun h => hij (by rw [h]))

theorem foldl_bumpCount_getD (l : List Nat) :
    ∀ (acc : List Nat) (i : Nat), (∀ v ∈ l, v < acc.length) → i < acc.length →
      (l.foldl bumpCount acc).getD i 0 = acc.getD i 0 + l.count i := by
  induction l with
  | nil => intro acc i _ _; simp
  | cons v rest ih =>
    intro acc i hv hi
    rw [List.foldl_cons]
    have hlen : (bumpCount acc v).length = acc.length := bumpCount_length acc v
    rw [ih (bumpCount acc v) i
      (fun x hx => by rw [hlen]; exact hv x (List.mem_cons_of_mem v hx))
      (by rw [hlen]; exact hi)]
    by_cases hiv : i = v
    · subst hiv
      rw [bumpCount, getD_set_same acc _ i hi, List.count_cons_self]
      omega
    · rw [bumpCount, getD_set_other acc _ v i (fun h => hiv h.symm)]
      rw [List.count_cons_of_ne (fun h => hiv (by exact_mod_cast h))]

theorem foldl_max_init (l : List Nat) : ∀ a : Nat, a ≤ l.foldl max a := by
  induction l with
  | nil => intro a; exact le_refl a
  | cons b rest ih =>
    intro a
    rw [List.foldl_cons]
    exact le_trans (le_max_left a b) (ih (max a b))

theorem le_maxSeg (seg : List Nat) : ∀ v ∈ seg, v ≤ maxSeg seg := by
  rw [maxSeg]
  generalize (0 : Nat) = a
  induction seg generalizing a with
  | nil => intro v hv; exact absurd hv (List.not_mem_nil v)
  | cons b rest ih =>
    intro v hv
    rw [List.foldl_cons]
    rcases List.mem_cons.1 hv with rfl | hv2
    · exact le_trans (le_max_right a v) (foldl_max_init rest (max a v))
    · exact ih (max a b) v hv2

theorem getD_replicate_zero : ∀ n i : Nat, (List.replicate n (0 : Nat)).getD i 0 = 0 := by
  intro n
  induction n with
  | zero => intro i; rfl
  | succ m ih =>
    intro i
    cases i with
    | zero => rfl
    | succ j => exact ih j

theorem computeSizes_length (seg : List Nat) :
    (computeSizes seg).length = maxSeg seg + 1 := by
  rw [computeSizes, foldl_bumpCount_length, List.length_replicate]

theorem computeSizes_count (seg : List Nat) (i : Nat) (hi : i ≤ maxSeg seg) :
    (computeSizes seg).getD i 0 = seg.count i := by
  rw [computeSizes]
  rw [foldl_bumpCount_getD seg (List.replicate (maxSeg seg + 1) 0) i
    (fun v hv => by rw [List.length_replicate]; exact Nat.lt_succ_of_le (le_maxSeg seg v hv))
    (by rw [List.length_replicate]; omega)]
  rw [getD_replicate_zero]
  omega

/-- Claim C7: with findFragments false the sizes array is computed directly
from the pre-supplied segmentation S, never consulting the watershed
output: its length is max S + 1 and entry i counts the voxels of seed id i
for every i up to max S. -/
theorem initSizes_noFragments_correct (seg : List Nat) (h : seg ≠ []) :
    (∀ watershedSizes : List Nat, initSizes false watershedSizes seg = computeSizes seg) ∧
    (computeSizes seg).length = maxSeg seg + 1 ∧
    ∀ i, i ≤ maxSeg seg → (computeSizes seg).getD i 0 = seg.count i :=
  ⟨fun _ => rfl, computeSizes_length seg, fun i hi => computeSizes_count seg i hi⟩

/-- Witness for claim C7 at the segmentation volume [1, 2, 2, 0]. -/
theorem initSizes_noFragments_correct_witness :
    ([1, 2, 2, 0] : List Nat) ≠ [] ∧
    ((∀ watershedSizes : List Nat,
        initSizes false watershedSizes [1, 2, 2, 0] = computeSizes [1, 2, 2, 0]) ∧
      (computeSizes [1, 2, 2, 0]).length = maxSeg [1, 2, 2, 0] + 1 ∧
      ∀ i, i ≤ maxSeg [1, 2, 2, 0] →
        (computeSizes [1, 2, 2, 0]).getD i 0 = List.count i [1, 2, 2, 0]) :=
  ⟨by decide, initSizes_noFragments_correct [1, 2, 2, 0] (by decide)⟩

/-- Claim C3: the claim asserts that leaving the unmerge list at its
declared NULL default is well defined; the code instead dereferences the
pointer unconditionally (frontend_agglomerate.cpp line 107), so the call
with the omitted argument fails instead of completing. -/
theorem initFrontend_null_unmerge (findFragments : Bool) (watershedSizes segData : List Nat) :
    initFrontend findFragments watershedSizes segData none = Except.error () := rfl

theorem regReachable_lt (r : Registry) (hr : RegReachable r) :
    ∀ k ∈ r.contexts, k < r.nextId := by
  induction hr with
  | base => intro k hk; exact absurd hk (List.not_mem_nil k)
  | createNew r2 _ ih =>
    intro k hk
    rcases List.mem_cons.1 hk with rfl | hk2
    · exact Nat.lt_succ_self _
    · exact Nat.lt_succ_of_lt (ih k hk2)
  | free r2 i _ ih =>
    intro k hk
    cases hg : r2.get i with
    | none =>
      simp only [Registry.free, hg] at hk ⊢
      exact ih k hk
    | some v =>
      simp only [Registry.free, hg] at hk ⊢
      exact ih k (List.mem_of_mem_filter hk)

/-- Claim C10: free is idempotent at the registry level: after free i the id
no longer resolves, a second free of the same id is a no-op, and an id that
was never issued resolves to NULL. -/
theorem context_free_idempotent (r : Registry) (i : Nat) (hr : RegReachable r) :
    (r.free i).get i = none ∧
    (r.free i).free i = r.free i ∧
    ∀ j, r.nextId ≤ j → r.get j = none := by
  have h1 : (r.free i).get i = none := by
    cases hg : r.get i with
    | none => simp only [Registry.free, hg]
    | some v =>
      simp only [Registry.free, hg]
      rw [Registry.get, if_neg]
      intro hmem
      rcases List.mem_filter.1 hmem with ⟨_, hbne⟩
      simp at hbne
  refine ⟨h1, ?_, ?_⟩
  · conv_lhs => rw [Registry.free]
    rw [h1]
  · intro j hj
    rw [Registry.get, if_neg]
    intro hmem
    exact absurd (regReachable_lt r hr j hmem) (by omega)

theorem doMerge_parent (s : EngineState) (ed : EdgeRec) (sc : ℚ) (ru rv : SegID) :
    (doMerge s ed sc ru rv).1.parent = (max ru rv, min ru rv) :: s.parent := rfl

theorem doMerge_tracker (s : EngineState) (ed : EdgeRec) (sc : ℚ) (ru rv : SegID) :
    (doMerge s ed sc ru rv).1.tracker = trackerOnMerge s.tracker ru rv (min ru rv) := rfl

theorem run_succ_none (t : ℚ) (n : Nat) (s : EngineState) (h : step t s = none) :
    run t (n + 1) s = (s, []) := by
  simp [run, h]

theorem run_succ_some (t : ℚ) (n : Nat) (s s2 : EngineState) (om : Option Merge)
    (h : step t s = some (s2, om)) :
    run t (n + 1) s = ((run t n s2).1, om.toList ++ (run t n s2).2) := by
  simp [run, h]

/-- The threshold enters the merge loop in exactly one comparison, so a step
taken below a threshold is taken identically below any larger one. -/
theorem step_mono (t1 t2 : ℚ) (h12 : t1 ≤ t2) (s : EngineState)
    (r : EngineState × Option Merge) (hs : step t1 s = some r) : step t2 s = some r := by
  rw [step] at hs ⊢
  cases hq : s.queue with
  | nil => rw [hq] at hs; exact absurd hs (by simp)
  | cons qe rest =>
    obtain ⟨sc, e⟩ := qe
    rw [hq] at hs
    simp only [] at hs ⊢
    cases hf : s.edges.find? (fun ed => ed.eid == e) with
    | none => rw [hf] at hs; simp only [] at hs ⊢; exact hs
    | some ed =>
      rw [hf] at hs
      simp only [] at hs ⊢
      by_cases hst : scoreOf s ed ≠ sc
      · rw [if_pos hst] at hs ⊢; exact hs
      · rw [if_neg hst] at hs ⊢
        by_cases ht1 : t1 < scoreOf s ed
        · rw [if_pos ht1] at hs; exact absurd hs (by simp)
        · rw [if_neg ht1] at hs
          push_neg at ht1
          rw [if_neg (not_lt.2 (le_trans ht1 h12))]
          exact hs

/-- Shape of a non-terminating step: either a bookkeeping step that keeps
the parent links and the tracker and reports no merge, or a merge step on
two distinct roots. -/
theorem step_shape (t : ℚ) (s : EngineState) (r : EngineState × Option Merge)
    (hs : step t s = some r) :
    (r.2 = none ∧ r.1.parent = s.parent ∧ r.1.tracker = s.tracker) ∨
    (∃ u v, resolve s.parent u ≠ resolve s.parent v ∧
      r.1.parent
        = (max (resolve s.parent u) (resolve s.parent v),
           min (resolve s.parent u) (resolve s.parent v)) :: s.parent ∧
      r.1.tracker
        = trackerOnMerge s.tracker (resolve s.parent u) (resolve s.parent v)
            (min (resolve s.parent u) (resolve s.parent v)) ∧
      r.2 ≠ none) := by
  rw [step] at hs
  cases hq : s.queue with
  | nil => rw [hq] at hs; exact absurd hs (by simp)
  | cons qe rest =>
    obtain ⟨sc, e⟩ := qe
    rw [hq] at hs
    simp only [] at hs
    cases hf : s.edges.find? (fun ed => ed.eid == e) with
    | none =>
      rw [hf] at hs
      simp only [] at hs
      obtain rfl := Option.some.inj hs
      exact Or.inl ⟨rfl, rfl, rfl⟩
    | some ed =>
      rw [hf] at hs
      simp only [] at hs
      by_cases hst : scoreOf s ed ≠ sc
      · rw [if_pos hst] at hs
        obtain rfl := Option.some.inj hs
        exact Or.inl ⟨rfl, rfl, rfl⟩
      · rw [if_neg hst] at hs
        by_cases ht : t < scoreOf s ed
        · rw [if_pos ht] at hs; exact absurd hs (by simp)
        · rw [if_neg ht] at hs
          by_cases hrr : resolve s.parent ed.u = resolve s.parent ed.v
          · rw [if_pos hrr] at hs
            obtain rfl := Option.some.inj hs
            exact Or.inl ⟨rfl, rfl, rfl⟩
          · rw [if_neg hrr] at hs
            by_cases hv : trackerValid s.tracker (resolve s.parent ed.u)
                (resolve s.parent ed.v) = true
            · rw [if_pos hv] at hs
              obtain rfl := Option.some.inj hs
              refine Or.inr ⟨ed.u, ed.v, hrr, rfl, rfl, by simp⟩
            · rw [if_neg hv] at hs
              obtain rfl := Option.some.inj hs
              exact Or.inl ⟨rfl, rfl, rfl⟩

theorem run_stable (t : ℚ) (n : Nat) :
    ∀ (s : EngineState) (k : Nat), Finished t n s → run t (n + k) s = run t n s := by
  induction n with
  | zero =>
    intro s k h
    have h0 : step t s = none := h
    cases k with
    | zero => rfl
    | succ j => rw [Nat.zero_add, run_succ_none t j s h0]; rfl
  | succ n2 ih =>
    intro s k h
    cases hs : step t s with
    | none =>
      rw [run_succ_none t n2 s hs]
      have e : (n2 + 1) + k = (n2 + k) + 1 := by omega
      rw [e, run_succ_none t (n2 + k) s hs]
    | some p =>
      obtain ⟨s2, om⟩ := p
      have h2 : Finished t n2 s2 := by
        unfold Finished at h ⊢
        rw [run_succ_some t n2 s s2 om hs] at h
        exact h
      have e : (n2 + 1) + k = (n2 + k) + 1 := by omega
      rw [e, run_succ_some t (n2 + k) s s2 om hs, run_succ_some t n2 s s2 om hs, ih s2 k h2]

/-- Modelled resumability at engine level: a finished lower-threshold run
followed by a higher-threshold run is one higher-threshold run, with the
histories concatenated. -/
theorem run_compose (t1 t2 : ℚ) (h12 : t1 ≤ t2) (n : Nat) :
    ∀ (m : Nat) (s : EngineState), Finished t1 n s → Finished t2 m (run t1 n s).1 →
      run t2 (n + m) s
        = ((run t2 m (run t1 n s).1).1,
           (run t1 n s).2 ++ (run t2 m (run t1 n s).1).2) := by
  induction n with
  | zero =>
    intro m s _ _
    rw [Nat.zero_add]
    rfl
  | succ n2 ih =>
    intro m s h1 h2
    cases hs : step t1 s with
    | none =>
      have e1 : run t1 (n2 + 1) s = (s, []) := run_succ_none t1 n2 s hs
      rw [e1]
      rw [e1] at h2
      have e2 : (n2 + 1) + m = m + (n2 + 1) := by omega
      rw [e2, run_stable t2 m s (n2 + 1) h2]
      rfl
    | some p =>
      obtain ⟨s2, om⟩ := p
      have hs2 : step t2 s = some (s2, om) := step_mono t1 t2 h12 s (s2, om) hs
      have e1 : run t1 (n2 + 1) s = ((run t1 n2 s2).1, om.toList ++ (run t1 n2 s2).2) :=
        run_succ_some t1 n2 s s2 om hs
      have h1' : Finished t1 n2 s2 := by
        unfold Finished at h1 ⊢
        rw [e1] at h1
        exact h1
      have h2' : Finished t2 m (run t1 n2 s2).1 := by
        rw [e1] at h2
        exact h2
      have e2 : (n2 + 1) + m = (n2 + m) + 1 := by omega
      rw [e2, run_succ_some t2 (n2 + m) s s2 om hs2, ih m s2 h1' h2', e1]
      simp [List.append_assoc]

theorem plookup_eq_none_iff (p : List (Nat × Nat)) (x : Nat) :
    plookup p x = none ↔ x ∉ p.map Prod.fst := by
  induction p with
  | nil => simp [plookup]
  | cons hd tl ih =>
    obtain ⟨a, b⟩ := hd
    by_cases hx : x = a
    · subst hx
      simp [plookup]
    · simp [plookup, hx, ih]

theorem keyIdx_none_iff (p : List (Nat × Nat)) (x : Nat) :
    keyIdx p x = none ↔ plookup p x = none := by
  induction p with
  | nil => simp [keyIdx, plookup]
  | cons hd tl ih =>
    obtain ⟨a, b⟩ := hd
    by_cases hx : x = a
    · subst hx
      simp [keyIdx, plookup]
    · simp [keyIdx, plookup, hx, ih, Option.map_eq_none']

theorem keyIdx_some (p : List (Nat × Nat)) (x : Nat) :
    ∀ i, keyIdx p x = some i →
      ∃ hlt : i < p.length, (p.get ⟨i, hlt⟩).1 = x ∧ plookup p x = some (p.get ⟨i, hlt⟩).2 := by
  induction p with
  | nil => intro i h; simp [keyIdx] at h
  | cons hd tl ih =>
    obtain ⟨a, b⟩ := hd
    intro i h
    by_cases hx : x = a
    · subst hx
      simp [keyIdx] at h
      subst h
      exact ⟨by simp, rfl, by simp [plookup]⟩
    · simp only [keyIdx, if_neg (fun hh => hx hh)] at h
      obtain ⟨j, hj, rfl⟩ := Option.map_eq_some'.1 h
      obtain ⟨hlt, hget, hpl⟩ := ih j hj
      refine ⟨by simpa using Nat.succ_lt_succ hlt, ?_, ?_⟩
      · rw [List.get_cons_succ]
        exact hget
      · rw [List.get_cons_succ, plookup, if_neg hx]
        exact hpl

theorem chainBound_none (p : List (Nat × Nat)) (x : Nat) (h : keyIdx p x = none) :
    chainBound p x = 0 := by
  rw [chainBound, h]

theorem chainBound_some (p : List (Nat × Nat)) (x i : Nat) (h : keyIdx p x = some i) :
    chainBound p x = i + 1 := by
  rw [chainBound, h]

theorem chainBound_le (p : List (Nat × Nat)) (x : Nat) : chainBound p x ≤ p.length := by
  cases hk : keyIdx p x with
  | none => rw [chainBound_none p x hk]; exact Nat.zero_le _
  | some i =>
    obtain ⟨hlt, _, _⟩ := keyIdx_some p x i hk
    rw [chainBound_some p x i hk]
    omega

theorem PWF_posdec (p : List (Nat × Nat)) (hw : PWF p) : PosDec p := by
  induction hw with
  | nil => intro i j hi _ _; simp at hi
  | @cons l s p2 hp hl hs hne ih =>
    intro i j hi hj heq
    cases i with
    | zero =>
      exfalso
      cases j with
      | zero => exact hne heq
      | succ j2 =>
        have hj2 : j2 < p2.length := by simpa using hj
        have hmem := List.mem_map_of_mem Prod.fst (List.get_mem p2 j2 hj2)
        exact (plookup_eq_none_iff p2 s).1 hs
          ((show (p2.get ⟨j2, hj2⟩).1 = s from heq) ▸ hmem)
    | succ i2 =>
      cases j with
      | zero => omega
      | succ j2 =>
        have hi2 : i2 < p2.length := by simpa using hi
        have hj2 : j2 < p2.length := by simpa using hj
        have heq2 : (p2.get ⟨j2, hj2⟩).1 = (p2.get ⟨i2, hi2⟩).2 := heq
        have := ih i2 j2 hi2 hj2 heq2
        omega

theorem resolveAux_of_none (p : List (Nat × Nat)) (x : Nat) (h : plookup p x = none) :
    ∀ f, resolveAux (f + 1) p x = x := by
  intro f
  simp [resolveAux, h]

theorem chain_main (p : List (Nat × Nat)) (hpd : PosDec p) :
    ∀ (n x : Nat), chainBound p x ≤ n → ∀ f, n ≤ f →
      (plookup p (resolveAux (f + 1) p x) = none ∧
        resolveAux (f + 1) p x = resolveAux (n + 1) p x) := by
  intro n
  induction n with
  | zero =>
    intro x hcb f _
    have hx : plookup p x = none := by
      cases hk : keyIdx p x with
      | none => exact (keyIdx_none_iff p x).1 hk
      | some i => rw [chainBound_some p x i hk] at hcb; omega
    rw [resolveAux_of_none p x hx f, resolveAux_of_none p x hx 0]
    exact ⟨hx, rfl⟩
  | succ n2 ih =>
    intro x hcb f hf
    cases hk : keyIdx p x with
    | none =>
      have hx := (keyIdx_none_iff p x).1 hk
      rw [resolveAux_of_none p x hx f, resolveAux_of_none p x hx (n2 + 1)]
      exact ⟨hx, rfl⟩
    | some i =>
      obtain ⟨hlt, hget, hpl⟩ := keyIdx_some p x i hk
      have hi_le : i ≤ n2 := by rw [chainBound_some p x i hk] at hcb; omega
      have hcby : chainBound p (p.get ⟨i, hlt⟩).2 ≤ n2 := by
        cases hky : keyIdx p (p.get ⟨i, hlt⟩).2 with
        | none => rw [chainBound_none p _ hky]; exact Nat.zero_le _
        | some j =>
          obtain ⟨hjlt, hgetj, _⟩ := keyIdx_some p _ j hky
          have hji : j < i := hpd i j hlt hjlt hgetj
          rw [chainBound_some p _ j hky]
          omega
      obtain ⟨f2, rfl⟩ : ∃ f2, f = f2 + 1 := ⟨f - 1, by omega⟩
      have hf2 : n2 ≤ f2 := by omega
      have step1 : resolveAux (f2 + 1 + 1) p x = resolveAux (f2 + 1) p (p.get ⟨i, hlt⟩).2 := by
        simp [resolveAux, hpl]
      have step2 : resolveAux (n2 + 1 + 1) p x = resolveAux (n2 + 1) p (p.get ⟨i, hlt⟩).2 := by
        simp [resolveAux, hpl]
      obtain ⟨ihA, ihB⟩ := ih (p.get ⟨i, hlt⟩).2 hcby f2 hf2
      refine ⟨?_, ?_⟩
      · rw [step1]
        exact ihA
      · rw [step1, step2]
        exact ihB

theorem resolve_root (p : List (Nat × Nat)) (hw : PWF p) (x : Nat) :
    plookup p (resolve p x) = none := by
  rw [resolve]
  exact (chain_main p (PWF_posdec p hw) p.length x (chainBound_le p x) p.length (le_refl _)).1

theorem resolveAux_eq_resolve (p : List (Nat × Nat)) (hpd : PosDec p) (x f : Nat)
    (hf : chainBound p x ≤ f) : resolveAux (f + 1) p x = resolve p x := by
  have h1 := (chain_main p hpd (chainBound p x) x (le_refl _) f hf).2
  have h2 := (chain_main p hpd (chainBound p x) x (le_refl _) p.length (chainBound_le p x)).2
  rw [resolve, h2, h1]

theorem PWF_append_not_left (p1 : List (Nat × Nat)) (x : Nat) :
    ∀ q : List (Nat × Nat), PWF (q ++ p1) → x ∈ p1.map Prod.fst → x ∉ q.map Prod.fst := by
  intro q
  induction q with
  | nil => intro _ _; simp
  | cons hd tl ih =>
    obtain ⟨a, b⟩ := hd
    intro hw hx
    cases hw with
    | cons hp hl hs hne =>
      intro hmem
      simp only [List.map_cons, List.mem_cons] at hmem
      rcases hmem with rfl | hmem2
      · have : x ∈ (tl ++ p1).map Prod.fst := by
          rw [List.map_append]
          exact List.mem_append_right _ hx
        exact (plookup_eq_none_iff _ x).1 hl this
      · exact ih hp hx hmem2

theorem plookup_append_right (q p : List (Nat × Nat)) (x : Nat)
    (hx : x ∉ q.map Prod.fst) : plookup (q ++ p) x = plookup p x := by
  induction q with
  | nil => rfl
  | cons hd tl ih =>
    obtain ⟨a, b⟩ := hd
    simp only [List.map_cons, List.mem_cons] at hx
    push_neg at hx
    rw [List.cons_append, plookup, if_neg hx.1]
    exact ih hx.2

theorem resolveAux_len_eq_resolve (p : List (Nat × Nat)) (hpd : PosDec p) (y : Nat)
    (hy : chainBound p y < p.length) : resolveAux p.length p y = resolve p y := by
  obtain ⟨L, hL⟩ : ∃ L, p.length = L + 1 := ⟨p.length - 1, by omega⟩
  have h2 : resolveAux p.length p y = resolveAux (L + 1) p y := by rw [hL]
  rw [h2]
  exact resolveAux_eq_resolve p hpd y L (by omega)

/-- Resolution through a grown forest absorbs resolution through the old
forest: chasing to an old root and then to the new root equals chasing
directly to the new root. -/
theorem resolve_append (p1 q : List (Nat × Nat)) (hp1 : PWF p1) (hp2 : PWF (q ++ p1)) :
    ∀ x, resolve (q ++ p1) (resolve p1 x) = resolve (q ++ p1) x := by
  have hpd1 : PosDec p1 := PWF_posdec p1 hp1
  have hpd2 : PosDec (q ++ p1) := PWF_posdec _ hp2
  suffices h : ∀ n x, chainBound p1 x ≤ n →
      resolve (q ++ p1) (resolve p1 x) = resolve (q ++ p1) x by
    intro x
    exact h (chainBound p1 x) x (le_refl _)
  intro n
  induction n with
  | zero =>
    intro x hcb
    have hx : plookup p1 x = none := by
      cases hk : keyIdx p1 x with
      | none => exact (keyIdx_none_iff p1 x).1 hk
      | some i => rw [chainBound_some p1 x i hk] at hcb; omega
    rw [show resolve p1 x = x from by rw [resolve]; exact resolveAux_of_none p1 x hx _]
  | succ n2 ih =>
    intro x hcb
    cases hk : keyIdx p1 x with
    | none =>
      have hx := (keyIdx_none_iff p1 x).1 hk
      rw [show resolve p1 x = x from by rw [resolve]; exact resolveAux_of_none p1 x hx _]
    | some i =>
      obtain ⟨hlt, hget, hpl⟩ := keyIdx_some p1 x i hk
      have hcby : chainBound p1 (p1.get ⟨i, hlt⟩).2 ≤ n2 := by
        cases hky : keyIdx p1 (p1.get ⟨i, hlt⟩).2 with
        | none => rw [chainBound_none p1 _ hky]; exact Nat.zero_le _
        | some j =>
          obtain ⟨hjlt, hgetj, _⟩ := keyIdx_some p1 _ j hky
          have hji : j < i := hpd1 i j hlt hjlt hgetj
          have hin : i ≤ n2 := by rw [chainBound_some p1 x i hk] at hcb; omega
          rw [chainBound_some p1 _ j hky]
          omega
      have hA : resolve p1 x = resolve p1 (p1.get ⟨i, hlt⟩).2 := by
        rw [resolve]
        rw [show resolveAux (p1.length + 1) p1 x
              = resolveAux p1.length p1 (p1.get ⟨i, hlt⟩).2 from by simp [resolveAux, hpl]]
        apply resolveAux_len_eq_resolve p1 hpd1
        cases hky : keyIdx p1 (p1.get ⟨i, hlt⟩).2 with
        | none => rw [chainBound_none p1 _ hky]; omega
        | some j =>
          obtain ⟨hjlt, hgetj, _⟩ := keyIdx_some p1 _ j hky
          have hji : j < i := hpd1 i j hlt hjlt hgetj
          rw [chainBound_some p1 _ j hky]
          omega
      have hxq : x ∉ q.map Prod.fst :=
        PWF_append_not_left p1 x q hp2
          (by rw [← hget]; exact List.mem_map_of_mem _ (List.get_mem p1 i hlt))
      have hpl2 : plookup (q ++ p1) x = some (p1.get ⟨i, hlt⟩).2 := by
        rw [plookup_append_right q p1 x hxq]
        exact hpl
      have hB : resolve (q ++ p1) x = resolve (q ++ p1) (p1.get ⟨i, hlt⟩).2 := by
        rw [resolve]
        have hlen2 : p1.length ≤ (q ++ p1).length := by
          rw [List.length_append]; omega
        rw [show resolveAux ((q ++ p1).length + 1) (q ++ p1) x
              = resolveAux (q ++ p1).length (q ++ p1) (p1.get ⟨i, hlt⟩).2 from by
            simp [resolveAux, hpl2]]
        apply resolveAux_len_eq_resolve _ hpd2
        cases hk2 : keyIdx (q ++ p1) x with
        | none =>
          exfalso
          have := (keyIdx_none_iff _ x).1 hk2
          rw [hpl2] at this
          simp at this
        | some ix =>
          obtain ⟨hixlt, _, hplix⟩ := keyIdx_some _ x ix hk2
          have hyeq : ((q ++ p1).get ⟨ix, hixlt⟩).2 = (p1.get ⟨i, hlt⟩).2 := by
            rw [hplix] at hpl2
            exact Option.some.inj hpl2
          cases hky : keyIdx (q ++ p1) (p1.get ⟨i, hlt⟩).2 with
          | none => rw [chainBound_none _ _ hky]; omega
          | some jy =>
            obtain ⟨hjylt, hgetjy, _⟩ := keyIdx_some _ _ jy hky
            have hjy : jy < ix := hpd2 ix jy hixlt hjylt (by rw [hgetjy, hyeq])
            rw [chainBound_some _ _ jy hky]
            omega
      rw [hA, hB]
      exact ih (p1.get ⟨i, hlt⟩).2 hcby

theorem step_PWF (t : ℚ) (s : EngineState) (r : EngineState × Option Merge)
    (hw : PWF s.parent) (hs : step t s = some r) : PWF r.1.parent := by
  rcases step_shape t s r hs with ⟨_, hpar, _⟩ | ⟨u, v, hne, hpar, _, _⟩
  · rw [hpar]; exact hw
  · rw [hpar]
    refine PWF.cons hw ?_ ?_ ?_
    · rcases Nat.le_total (resolve s.parent u) (resolve s.parent v) with h | h
      · rw [Nat.max_eq_right h]
        exact resolve_root s.parent hw v
      · rw [Nat.max_eq_left h]
        exact resolve_root s.parent hw u
    · rcases Nat.le_total (resolve s.parent u) (resolve s.parent v) with h | h
      · rw [Nat.min_eq_left h]
        exact resolve_root s.parent hw u
      · rw [Nat.min_eq_right h]
        exact resolve_root s.parent hw v
    · omega

theorem run_PWF (t : ℚ) (n : Nat) :
    ∀ s : EngineState, PWF s.parent → PWF (run t n s).1.parent := by
  induction n with
  | zero => intro s hw; exact hw
  | succ n2 ih =>
    intro s hw
    cases hs : step t s with
    | none => rw [run_succ_none t n2 s hs]; exact hw
    | some p =>
      obtain ⟨s2, om⟩ := p
      rw [run_succ_some t n2 s s2 om hs]
      exact ih s2 (step_PWF t s (s2, om) hw hs)

theorem run_parent_extend (t : ℚ) (n : Nat) :
    ∀ s : EngineState, ∃ q, (run t n s).1.parent = q ++ s.parent := by
  induction n with
  | zero => intro s; exact ⟨[], rfl⟩
  | succ n2 ih =>
    intro s
    cases hs : step t s with
    | none => rw [run_succ_none t n2 s hs]; exact ⟨[], rfl⟩
    | some p =>
      obtain ⟨s2, om⟩ := p
      rw [run_succ_some t n2 s s2 om hs]
      obtain ⟨q2, hq2⟩ := ih s2
      rcases step_shape t s (s2, om) hs with ⟨_, hpar, _⟩ | ⟨u, v, _, hpar, _, _⟩
      · exact ⟨q2, by rw [hq2, hpar]⟩
      · refine ⟨q2 ++ [(max (resolve s.parent u) (resolve s.parent v),
            min (resolve s.parent u) (resolve s.parent v))], ?_⟩
        rw [hq2, hpar, List.append_cons]

theorem run_hist_nil_parent (t : ℚ) (n : Nat) :
    ∀ s : EngineState, (run t n s).2 = [] → (run t n s).1.parent = s.parent := by
  induction n with
  | zero => intro s _; rfl
  | succ n2 ih =>
    intro s h
    cases hs : step t s with
    | none => rw [run_succ_none t n2 s hs]
    | some p =>
      obtain ⟨s2, om⟩ := p
      rw [run_succ_some t n2 s s2 om hs] at h ⊢
      have hom : om = none := by
        cases om with
        | none => rfl
        | some m => simp at h
      subst hom
      simp only [Option.toList, List.nil_append] at h
      rcases step_shape t s (s2, none) hs with ⟨_, hpar, _⟩ | ⟨u, v, _, _, _, hne2⟩
      · rw [ih s2 h, hpar]
      · exact absurd rfl hne2

theorem run_tracker_none (t : ℚ) (n : Nat) :
    ∀ s : EngineState, s.tracker = none → (run t n s).1.tracker = none := by
  induction n with
  | zero => intro s h; exact h
  | succ n2 ih =>
    intro s h
    cases hs : step t s with
    | none => rw [run_succ_none t n2 s hs]; exact h
    | some p =>
      obtain ⟨s2, om⟩ := p
      rw [run_succ_some t n2 s s2 om hs]
      refine ih s2 ?_
      rcases step_shape t s (s2, om) hs with ⟨_, _, htr⟩ | ⟨u, v, _, _, htr, _⟩
      · rw [htr]; exact h
      · rw [htr, h]; rfl

theorem engine_tracker_eta (s : EngineState) (h : s.tracker = none) :
    ({ s with tracker := none } : EngineState) = s := by
  cases s with
  | mk cb scf es pr qu tr =>
    simp only [] at h
    subst h
    rfl

theorem fmergeUntil_empty_unmerge (c : Ctx) (hL : c.unmergeList = []) (t : ℚ) (fuel : Nat) :
    fmergeUntil c t fuel
      = (⟨(run t fuel { c.engine with tracker := none }).1,
          if (run t fuel { c.engine with tracker := none }).2.length ≠ 0
            then c.seg.map (resolve (run t fuel { c.engine with tracker := none }).1.parent)
            else c.seg,
          c.unmergeList⟩,
         (run t fuel { c.engine with tracker := none }).2) := by
  rw [fmergeUntil, hL]
  simp

/-- Claim C1 (amended): for thresholds t1 < t2 and a context whose unmerge
list is empty, running mergeUntil at t1 and then at t2 gives the same final
context (segmentation included) as one direct run at t2, and the two
histories concatenate to the direct history.  The fuel values must let each
run reach its termination condition. -/
theorem mergeUntil_monotone_of_no_unmerge (c : Ctx) (t1 t2 : ℚ) (n m : Nat)
    (hL : c.unmergeList = [])
    (hw : PWF c.engine.parent)
    (ht : t1 < t2)
    (h1 : Finished t1 n { c.engine with tracker := none })
    (h2 : Finished t2 m (run t1 n { c.engine with tracker := none }).1) :
    (fmergeUntil (fmergeUntil c t1 n).1 t2 m).1 = (fmergeUntil c t2 (n + m)).1 ∧
    (fmergeUntil c t1 n).2 ++ (fmergeUntil (fmergeUntil c t1 n).1 t2 m).2
      = (fmergeUntil c t2 (n + m)).2 := by
  have htrA : (run t1 n { c.engine with tracker := none }).1.tracker = none :=
    run_tracker_none t1 n _ rfl
  have hwA : PWF (run t1 n { c.engine with tracker := none }).1.parent := run_PWF t1 n _ hw
  have hwB : PWF (run t2 m (run t1 n { c.engine with tracker := none }).1).1.parent :=
    run_PWF t2 m _ hwA
  obtain ⟨q, hq⟩ := run_parent_extend t2 m (run t1 n { c.engine with tracker := none }).1
  have hcomp := run_compose t1 t2 (le_of_lt ht) n m { c.engine with tracker := none } h1 h2
  rw [fmergeUntil_empty_unmerge c hL t1 n, fmergeUntil_empty_unmerge c hL t2 (n + m), hcomp]
  simp only []
  rw [fmergeUntil_empty_unmerge
    ⟨(run t1 n { c.engine with tracker := none }).1,
      if (run t1 n { c.engine with tracker := none }).2.length ≠ 0
        then c.seg.map (resolve (run t1 n { c.engine with tracker := none }).1.parent)
        else c.seg,
      c.unmergeList⟩ hL t2 m]
  simp only []
  rw [engine_tracker_eta _ htrA]
  constructor
  · rw [Ctx.mk.injEq]
    refine ⟨rfl, ?_, rfl⟩
    by_cases hA2 : (run t1 n { c.engine with tracker := none }).2 = []
    · by_cases hB2 : (run t2 m (run t1 n { c.engine with tracker := none }).1).2 = []
      · simp [hA2, hB2]
      · simp [hA2, hB2]
    · by_cases hB2 : (run t2 m (run t1 n { c.engine with tracker := none }).1).2 = []
      · have hpar := run_hist_nil_parent t2 m (run t1 n { c.engine with tracker := none }).1 hB2
        simp [hA2, hB2, hpar]
      · have hA2n : (run t1 n { c.engine with tracker := none }).2.length ≠ 0 :=
          fun h => hA2 (List.length_eq_zero.1 h)
        have hB2n : (run t2 m (run t1 n { c.engine with tracker := none }).1).2.length ≠ 0 :=
          fun h => hB2 (List.length_eq_zero.1 h)
        have hABn : ((run t1 n { c.engine with tracker := none }).2
            ++ (run t2 m (run t1 n { c.engine with tracker := none }).1).2).length ≠ 0 := by
          intro h
          rw [List.length_append] at h
          exact hA2n (by omega)
        rw [if_pos hB2n, if_pos hA2n, if_pos hABn, List.map_map]
        apply List.map_congr_left
        intro a _
        simp only [Function.comp_apply]
        rw [hq]
        exact resolve_append _ q hwA (hq ▸ hwB) a
  · simp only []

/-- Claim C1 counterexample: on the chain context with the constraint that
seed 1 must never join seed 3 and thresholds 0 < 1, the split run merges
all three seeds because the second mergeUntil call rebuilds the tracker
from the stored unmerge list (frontend_agglomerate.cpp lines 124-127) and
thereby forgets that the survivor of the first merge carries the group of
seed 3, while the direct run at threshold 1 blocks that merge: both the
final segmentations and the concatenated histories differ. -/
theorem mergeUntil_monotone_cex :
    (-1 : ℚ) < 0 ∧
    ¬ (((fmergeUntil (fmergeUntil exCtx (-1) 5).1 0 5).1.seg = (fmergeUntil exCtx 0 10).1.seg) ∧
        ((fmergeUntil exCtx (-1) 5).2 ++ (fmergeUntil (fmergeUntil exCtx (-1) 5).1 0 5).2
          = (fmergeUntil exCtx 0 10).2)) :=
  ⟨by norm_num, by decide⟩

/-- Witness for the amended claim C1 on the unconstrained chain context. -/
theorem mergeUntil_monotone_of_no_unmerge_witness :
    exCtx0.unmergeList = [] ∧ PWF exCtx0.engine.parent ∧ (-1 : ℚ) < 0 ∧
    Finished (-1) 5 { exCtx0.engine with tracker := none } ∧
    Finished 0 5 (run (-1) 5 { exCtx0.engine with tracker := none }).1 ∧
    ((fmergeUntil (fmergeUntil exCtx0 (-1) 5).1 0 5).1 = (fmergeUntil exCtx0 0 (5 + 5)).1 ∧
      (fmergeUntil exCtx0 (-1) 5).2 ++ (fmergeUntil (fmergeUntil exCtx0 (-1) 5).1 0 5).2
        = (fmergeUntil exCtx0 0 (5 + 5)).2) :=
  ⟨rfl, PWF.nil, by norm_num,
   by unfold Finished; rfl,
   by unfold Finished; rfl,
   mergeUntil_monotone_of_no_unmerge exCtx0 (-1) 0 5 5 rfl PWF.nil (by norm_num)
     (by unfold Finished; rfl) (by unfold Finished; rfl)⟩

/-- Claim C4: two complete runs on bit-identical inputs produce identical
merge histories, entry for entry, scores included.  The modelled pipeline
is a pure function of the context, the threshold and the fuel; it consumes
no other input, so equal inputs give equal histories. -/
theorem mergeHistory_deterministic (c1 c2 : Ctx) (t1 t2 : ℚ) (f1 f2 : Nat)
    (hc : c1 = c2) (ht : t1 = t2) (hf : f1 = f2) :
    fullRun c1 t1 f1 = fullRun c2 t2 f2 := by
  subst hc
  subst ht
  subst hf
  rfl

/-- Witness for claim C4 on the constrained chain context. -/
theorem mergeHistory_deterministic_witness :
    exCtx = exCtx ∧ (0 : ℚ) = 0 ∧ (6 : Nat) = 6 ∧
    fullRun exCtx 0 6 = fullRun exCtx 0 6 :=
  ⟨rfl, rfl, rfl, mergeHistory_deterministic exCtx exCtx 0 0 6 6 rfl rfl rfl⟩

/-- Claim C9: a mergeUntil call whose returned history is empty leaves the
caller-supplied segmentation volume unchanged; extraction is executed only
when at least one merge occurred (the if (merged) guard of
frontend_agglomerate.cpp lines 135-140). -/
theorem mergeUntil_empty_history_seg (c : Ctx) (t : ℚ) (fuel : Nat)
    (h : (fmergeUntil c t fuel).2 = []) :
    (fmergeUntil c t fuel).1.seg = c.seg := by
  rw [fmergeUntil] at h ⊢
  simp only [] at h ⊢
  rw [h]
  simp

/-- Witness for claim C9: below every score nothing merges and the volume
stays intact. -/
theorem mergeUntil_empty_history_seg_witness :
    (fmergeUntil exCtx0 (-2) 3).2 = [] ∧ (fmergeUntil exCtx0 (-2) 3).1.seg = exCtx0.seg :=
  ⟨by decide, mergeUntil_empty_history_seg exCtx0 (-2) 3 (by decide)⟩

/-- Witness for claim C10 on the registry right after one createNew. -/
theorem context_free_idempotent_witness :
    RegReachable Registry.empty.createNew.1 ∧
    ((Registry.empty.createNew.1.free 0).get 0 = none ∧
      (Registry.empty.createNew.1.free 0).free 0 = Registry.empty.createNew.1.free 0 ∧
      ∀ j, Registry.empty.createNew.1.nextId ≤ j → Registry.empty.createNew.1.get j = none) :=
  ⟨RegReachable.createNew Registry.empty RegReachable.base,
   context_free_idempotent Registry.empty.createNew.1 0
     (RegReachable.createNew Registry.empty RegReachable.base)⟩

end Waterz
